import Mathlib

/-!
Verification of the orders-mvp frontend text-matching and caching core.

Strings are modelled as `List Char` (one entry per Unicode scalar value).
JavaScript `String.prototype.toLowerCase` is modelled by `Char.toLower`
applied characterwise (simple case folding on the basic latin letters; all
characters handled by the substitution table and by the claims are in this
range). The regular-expression class `\s` of the source is modelled by
`isJsWs`, listing the ECMAScript whitespace code points.
-/

/-- Set of code points matched by the ECMAScript regular-expression class
`\s` (WhiteSpace and LineTerminator productions). -/
def isJsWs (c : Char) : Bool :=
  let n := c.toNat
  (9 ≤ n && n ≤ 13) || n == 32 || n == 160 || n == 0x1680 ||
  (0x2000 ≤ n && n ≤ 0x200A) || n == 0x2028 || n == 0x2029 ||
  n == 0x202F || n == 0x205F || n == 0x3000 || n == 0xFEFF

/-- Soft hyphen U+00AD, removed by `normalizeForSearch`. -/
def softHyphen : Char := Char.ofNat 0xAD

/-- En dash U+2013, a key of the substitution table in `normChar`. -/
def enDash : Char := Char.ofNat 0x2013

/-- Em dash U+2014, a key of the substitution table in `normChar`. -/
def emDash : Char := Char.ofNat 0x2014

/-- Left typographic double quote U+201C. -/
def ldQuote : Char := Char.ofNat 0x201C

/-- Right typographic double quote U+201D. -/
def rdQuote : Char := Char.ofNat 0x201D

/-- Low typographic double quote U+201E. -/
def lowQuote : Char := Char.ofNat 0x201E

/-- Right typographic single quote U+2019. -/
def rsQuote : Char := Char.ofNat 0x2019

/-- Left typographic single quote U+2018. -/
def lsQuote : Char := Char.ofNat 0x2018

/-- ASCII double quote, a value of the substitution table. -/
def asciiDQuote : Char := Char.ofNat 34

/-- ASCII apostrophe, a value of the substitution table. -/
def asciiSQuote : Char := Char.ofNat 39

/-- Embeds `normChar` of `src/web/pages/index.js`: a fixed substitution
table collapsing typographic dash and quote variants to ASCII; every
character that is not a key of the table passes through unchanged. -/
def normChar (c : Char) : Char :=
  if c = enDash then '-'
  else if c = emDash then '-'
  else if c = ldQuote then asciiDQuote
  else if c = rdQuote then asciiDQuote
  else if c = lowQuote then asciiDQuote
  else if c = rsQuote then asciiSQuote
  else if c = lsQuote then asciiSQuote
  else c

/-- Embeds `normalizeForSearch` of `src/web/pages/index.js` on a present
string: map `normChar` over the characters, lowercase, delete every soft
hyphen (the `replace(/­/g, "")` step), then delete every whitespace
character (the `replace(/\s+/g, "")` step). -/
def normalizeForSearch (s : List Char) : List Char :=
  ((((s.map normChar).map Char.toLower).filter
      (fun c => !(c == softHyphen))).filter
      (fun c => !(isJsWs c)))

/-- Embeds the `if (!s) return ""` guard of `normalizeForSearch`: a missing
(null or undefined) input yields the empty string. -/
def normalizeForSearchOpt : Option (List Char) → List Char
  | none => []
  | some s => normalizeForSearch s

/-- Decidable test for the ASCII uppercase range, used to state that
normalized output is lowercased. -/
def isAsciiUpper (c : Char) : Bool :=
  decide (65 ≤ c.toNat) && decide (c.toNat ≤ 90)

theorem toNat_ofNat_of_valid {n : Nat} (h : n.isValidChar) :
    (Char.ofNat n).toNat = n := by
  simp only [Char.ofNat, h, dif_pos]
  rfl

theorem toNat_toLower_of_upper {c : Char} (h65 : 65 ≤ c.toNat)
    (h90 : c.toNat ≤ 90) : c.toLower.toNat = c.toNat + 32 := by
  have hv : (c.toNat + 32).isValidChar := by
    left
    omega
  simp only [Char.toLower, ge_iff_le]
  rw [if_pos ⟨h65, h90⟩]
  exact toNat_ofNat_of_valid hv

theorem toLower_of_not_upper {c : Char} (h : isAsciiUpper c = false) :
    c.toLower = c := by
  simp only [isAsciiUpper, Bool.and_eq_false_iff, decide_eq_false_iff_not,
    Nat.not_le] at h
  simp only [Char.toLower, ge_iff_le]
  rw [if_neg]
  rintro ⟨h1, h2⟩
  rcases h with h | h <;> omega

theorem isAsciiUpper_toLower (c : Char) : isAsciiUpper c.toLower = false := by
  by_cases h : isAsciiUpper c = true
  · simp only [isAsciiUpper, Bool.and_eq_true, decide_eq_true_eq] at h
    have := toNat_toLower_of_upper h.1 h.2
    simp only [isAsciiUpper, Bool.and_eq_false_iff, decide_eq_false_iff_not,
      Nat.not_le]
    right
    omega
  · rw [toLower_of_not_upper (Bool.eq_false_iff.mpr h)]
    exact Bool.eq_false_iff.mpr h

theorem toLower_toLower (c : Char) : c.toLower.toLower = c.toLower :=
  toLower_of_not_upper (isAsciiUpper_toLower c)

theorem normChar_fix_of_small {c : Char} (h : c.toNat < 8211) :
    normChar c = c := by
  unfold normChar
  split_ifs with h1 h2 h3 h4 h5 h6 h7 <;>
    first
    | rfl
    | (subst_vars; exact absurd h (by decide))

theorem normChar_small_or_fix (c : Char) :
    (normChar c).toNat < 8211 ∨ normChar c = c := by
  unfold normChar
  split_ifs <;> first | (left; decide) | (right; rfl)

theorem normChar_normChar (c : Char) :
    normChar (normChar c) = normChar c := by
  rcases normChar_small_or_fix c with h | h
  · exact normChar_fix_of_small h
  · rw [h]; exact h

theorem normChar_toLower_normChar (c : Char) :
    normChar (Char.toLower (normChar c)) = Char.toLower (normChar c) := by
  by_cases hU : isAsciiUpper (normChar c) = true
  · have h1 : 65 ≤ (normChar c).toNat ∧ (normChar c).toNat ≤ 90 := by
      simpa [isAsciiUpper] using hU
    have h2 := toNat_toLower_of_upper h1.1 h1.2
    exact normChar_fix_of_small (by omega)
  · rw [toLower_of_not_upper (Bool.eq_false_iff.mpr hU)]
    exact normChar_normChar c

theorem mem_normalizeForSearch {c : Char} {s : List Char}
    (h : c ∈ normalizeForSearch s) :
    isJsWs c = false ∧ c ≠ softHyphen ∧ normChar c = c ∧
      Char.toLower c = c ∧ isAsciiUpper c = false := by
  unfold normalizeForSearch at h
  rw [List.mem_filter] at h
  obtain ⟨h1, hws⟩ := h
  rw [List.mem_filter] at h1
  obtain ⟨h2, hshy⟩ := h1
  rw [List.mem_map] at h2
  obtain ⟨b, hb, rfl⟩ := h2
  rw [List.mem_map] at hb
  obtain ⟨a, _, rfl⟩ := hb
  refine ⟨by simpa using hws, by simpa using hshy, ?_, ?_, ?_⟩
  · exact normChar_toLower_normChar a
  · exact toLower_toLower (normChar a)
  · exact isAsciiUpper_toLower (normChar a)

theorem normalizeForSearch_fixed {l : List Char}
    (h : ∀ c ∈ l, isJsWs c = false ∧ c ≠ softHyphen ∧ normChar c = c ∧
      Char.toLower c = c) :
    normalizeForSearch l = l := by
  unfold normalizeForSearch
  have h1 : l.map normChar = l := by
    rw [show l.map normChar = l.map id from
      List.map_congr_left (fun c hc => (h c hc).2.2.1), List.map_id]
  rw [h1]
  have h2 : l.map Char.toLower = l := by
    rw [show l.map Char.toLower = l.map id from
      List.map_congr_left (fun c hc => (h c hc).2.2.2), List.map_id]
  rw [h2]
  have h3 : l.filter (fun c => !(c == softHyphen)) = l := by
    apply List.filter_eq_self.mpr
    intro c hc
    simpa using (h c hc).2.1
  rw [h3]
  apply List.filter_eq_self.mpr
  intro c hc
  simpa using (h c hc).1

theorem normalizeForSearch_idem (s : List Char) :
    normalizeForSearch (normalizeForSearch s) = normalizeForSearch s :=
  normalizeForSearch_fixed (fun _ hc =>
    ⟨(mem_normalizeForSearch hc).1, (mem_normalizeForSearch hc).2.1,
     (mem_normalizeForSearch hc).2.2.1, (mem_normalizeForSearch hc).2.2.2.1⟩)

/-- Modelled from the spec: the collapsing normalization profile of §4.1 is
not present under `src/` (only the stripping profile `normalizeForSearch`
is); this is its whitespace-collapsing step. The boolean argument records
whether the previously emitted character was a separator; a run of
whitespace emits a single ASCII space, and an initial run emits nothing
(leading trim). -/
def collapseWsAux : Bool → List Char → List Char
  | _, [] => []
  | prevWs, c :: rest =>
    if isJsWs c then
      if prevWs then collapseWsAux true rest
      else ' ' :: collapseWsAux true rest
    else c :: collapseWsAux false rest

/-- Modelled from the spec: trailing-whitespace trim of the collapsing
profile (§4.1 step 4). A character is dropped exactly when it is
whitespace and everything after it trims to the empty list. -/
def trimTrailingWs : List Char → List Char
  | [] => []
  | c :: rest =>
    let r := trimTrailingWs rest
    if r.isEmpty && isJsWs c then [] else c :: r

/-- Modelled from the spec: the collapsing normalization profile of §4.1
(substitution table, lowercase, collapse whitespace runs to one space,
trim), absent from `src/`. -/
def normalizeCollapse (s : List Char) : List Char :=
  trimTrailingWs (collapseWsAux true ((s.map normChar).map Char.toLower))

/-- Normal-form predicate for `collapseWsAux`: no whitespace other than
single ASCII spaces, never two spaces in a row, and no space while the
flag says a separator was just emitted. -/
def collapsedFrom : Bool → List Char → Bool
  | _, [] => true
  | prevWs, c :: rest =>
    if c = ' ' then !prevWs && collapsedFrom true rest
    else !(isJsWs c) && collapsedFrom false rest

theorem collapseWsAux_of_collapsedFrom :
    ∀ (b : Bool) (l : List Char), collapsedFrom b l = true →
      collapseWsAux b l = l := by
  intro b l
  induction l generalizing b with
  | nil => intro _; rfl
  | cons c rest ih =>
    intro h
    unfold collapsedFrom at h
    by_cases hc : c = ' '
    · rw [if_pos hc] at h
      simp only [Bool.and_eq_true, Bool.not_eq_true'] at h
      subst hc
      unfold collapseWsAux
      rw [if_pos (by decide : isJsWs ' ' = true), if_neg (by simp [h.1])]
      rw [ih true h.2]
    · rw [if_neg hc] at h
      simp only [Bool.and_eq_true, Bool.not_eq_true'] at h
      unfold collapseWsAux
      rw [if_neg (by simp [h.1])]
      rw [ih false h.2]

theorem collapsedFrom_collapseWsAux :
    ∀ (b : Bool) (l : List Char), collapsedFrom b (collapseWsAux b l) = true := by
  intro b l
  induction l generalizing b with
  | nil => rfl
  | cons c rest ih =>
    unfold collapseWsAux
    by_cases hw : isJsWs c = true
    · rw [if_pos hw]
      cases b with
      | true => simpa using ih true
      | false =>
        simp only [Bool.false_eq_true, if_false]
        unfold collapsedFrom
        rw [if_pos rfl]
        simpa using ih true
    · rw [if_neg hw]
      unfold collapsedFrom
      have hcs : c ≠ ' ' := by
        intro hc
        subst hc
        exact hw (by decide)
      rw [if_neg hcs]
      simp only [Bool.and_eq_true, Bool.not_eq_true]
      exact ⟨by simp [Bool.eq_false_iff.mpr hw], ih false⟩

theorem collapsedFrom_trimTrailingWs :
    ∀ (b : Bool) (l : List Char), collapsedFrom b l = true →
      collapsedFrom b (trimTrailingWs l) = true := by
  intro b l
  induction l generalizing b with
  | nil => intro _; rfl
  | cons c rest ih =>
    intro h
    unfold trimTrailingWs
    by_cases hdrop : (trimTrailingWs rest).isEmpty && isJsWs c
    · rw [if_pos hdrop]; rfl
    · rw [if_neg hdrop]
      unfold collapsedFrom at h ⊢
      by_cases hc : c = ' '
      · rw [if_pos hc] at h ⊢
        simp only [Bool.and_eq_true] at h ⊢
        exact ⟨h.1, ih true h.2⟩
      · rw [if_neg hc] at h ⊢
        simp only [Bool.and_eq_true] at h ⊢
        exact ⟨h.1, ih false h.2⟩

theorem trimTrailingWs_cons (c : Char) (rest : List Char) :
    trimTrailingWs (c :: rest) =
      if (trimTrailingWs rest).isEmpty && isJsWs c then []
      else c :: trimTrailingWs rest := rfl

theorem trimTrailingWs_trimTrailingWs (l : List Char) :
    trimTrailingWs (trimTrailingWs l) = trimTrailingWs l := by
  induction l with
  | nil => rfl
  | cons c rest ih =>
    rw [trimTrailingWs_cons]
    by_cases hdrop : ((trimTrailingWs rest).isEmpty && isJsWs c) = true
    · rw [if_pos hdrop]; rfl
    · rw [if_neg hdrop, trimTrailingWs_cons, ih, if_neg hdrop]

theorem mem_collapseWsAux {c : Char} :
    ∀ (b : Bool) (l : List Char), c ∈ collapseWsAux b l →
      c = ' ' ∨ c ∈ l := by
  intro b l
  induction l generalizing b with
  | nil => intro h; exact absurd h (List.not_mem_nil c)
  | cons a rest ih =>
    unfold collapseWsAux
    by_cases hw : isJsWs a = true
    · rw [if_pos hw]
      cases b with
      | true =>
        intro h
        rcases ih true h with h1 | h1
        · exact Or.inl h1
        · exact Or.inr (List.mem_cons_of_mem a h1)
      | false =>
        simp only [Bool.false_eq_true, if_false]
        intro h
        rcases List.mem_cons.mp h with h1 | h1
        · exact Or.inl h1
        · rcases ih true h1 with h2 | h2
          · exact Or.inl h2
          · exact Or.inr (List.mem_cons_of_mem a h2)
    · rw [if_neg hw]
      intro h
      rcases List.mem_cons.mp h with h1 | h1
      · exact Or.inr (h1 ▸ List.mem_cons_self a rest)
      · rcases ih false h1 with h2 | h2
        · exact Or.inl h2
        · exact Or.inr (List.mem_cons_of_mem a h2)

theorem mem_trimTrailingWs {c : Char} :
    ∀ l : List Char, c ∈ trimTrailingWs l → c ∈ l := by
  intro l
  induction l with
  | nil => exact fun h => h
  | cons a rest ih =>
    unfold trimTrailingWs
    by_cases hdrop : (trimTrailingWs rest).isEmpty && isJsWs a
    · rw [if_pos hdrop]
      intro h
      exact absurd h (List.not_mem_nil c)
    · rw [if_neg hdrop]
      intro h
      rcases List.mem_cons.mp h with h1 | h1
      · exact h1 ▸ List.mem_cons_self a rest
      · exact List.mem_cons_of_mem a (ih h1)

theorem mem_normalizeCollapse {c : Char} {s : List Char}
    (h : c ∈ normalizeCollapse s) :
    normChar c = c ∧ Char.toLower c = c := by
  unfold normalizeCollapse at h
  have h1 := mem_trimTrailingWs _ h
  rcases mem_collapseWsAux _ _ h1 with h2 | h2
  · subst h2
    exact ⟨normChar_fix_of_small (by decide), by decide⟩
  · rw [List.mem_map] at h2
    obtain ⟨b, hb, rfl⟩ := h2
    rw [List.mem_map] at hb
    obtain ⟨a, _, rfl⟩ := hb
    exact ⟨normChar_toLower_normChar a, toLower_toLower (normChar a)⟩

theorem normalizeCollapse_fixed {l : List Char}
    (hm : ∀ c ∈ l, normChar c = c ∧ Char.toLower c = c)
    (hc : collapsedFrom true l = true)
    (ht : trimTrailingWs l = l) :
    normalizeCollapse l = l := by
  unfold normalizeCollapse
  have h1 : l.map normChar = l := by
    rw [show l.map normChar = l.map id from
      List.map_congr_left (fun c hcm => (hm c hcm).1), List.map_id]
  rw [h1]
  have h2 : l.map Char.toLower = l := by
    rw [show l.map Char.toLower = l.map id from
      List.map_congr_left (fun c hcm => (hm c hcm).2), List.map_id]
  rw [h2]
  rw [collapseWsAux_of_collapsedFrom true l hc]
  exact ht

theorem normalizeCollapse_idem (s : List Char) :
    normalizeCollapse (normalizeCollapse s) = normalizeCollapse s := by
  apply normalizeCollapse_fixed
  · exact fun _ hc => mem_normalizeCollapse hc
  · unfold normalizeCollapse
    exact collapsedFrom_trimTrailingWs true _ (collapsedFrom_collapseWsAux true _)
  · unfold normalizeCollapse
    exact trimTrailingWs_trimTrailingWs _

/-- Helper for `jsIncludes`: least offset at which `needle` occurs in the
remaining haystack, scanning left to right. -/
def firstMatchAux (needle : List Char) : Nat → List Char → Option Nat
  | s, [] => if needle.isPrefixOf ([] : List Char) then some s else none
  | s, c :: rest =>
    if needle.isPrefixOf (c :: rest) then some s
    else firstMatchAux needle (s + 1) rest

/-- Embeds JavaScript `String.prototype.includes` as used by `ns.includes(w)`
in `renderPage` of `src/web/pages/index.js`: substring containment, with the
empty needle contained in every string. -/
def jsIncludes (hay needle : List Char) : Bool :=
  (firstMatchAux needle 0 hay).isSome

/-- Embeds `const wanted = (highlightTokens || []).map(normalizeForSearch).filter(Boolean)`
of `renderPage` in `src/web/pages/index.js`: anchors are normalized with
the stripping profile and those that normalize to the empty string are
discarded (the empty string is falsy). -/
def wanted (highlightTokens : List (List Char)) : List (List Char) :=
  (highlightTokens.map normalizeForSearch).filter (fun w => !w.isEmpty)

/-- Embeds the per-fragment hit decision of `renderPage` in
`src/web/pages/index.js`:
`const ns = normalizeForSearch(item.str || ""); const isHit = wanted.length > 0 && wanted.some((w) => ns.includes(w))`. -/
def isHit (highlightTokens : List (List Char)) (fragText : List Char) : Bool :=
  decide (0 < (wanted highlightTokens).length) &&
    (wanted highlightTokens).any
      (fun w => jsIncludes (normalizeForSearch fragText) w)

theorem isHit_iff_aux (tokens : List (List Char)) (frag : List Char) :
    isHit tokens frag = true ↔
      ∃ t ∈ tokens, normalizeForSearch t ≠ [] ∧
        jsIncludes (normalizeForSearch frag) (normalizeForSearch t) = true := by
  unfold isHit wanted
  constructor
  · intro h
    simp only [Bool.and_eq_true, decide_eq_true_eq, List.any_eq_true] at h
    obtain ⟨-, w, hw, hinc⟩ := h
    rw [List.mem_filter] at hw
    obtain ⟨hwmem, hne⟩ := hw
    rw [List.mem_map] at hwmem
    obtain ⟨t, ht, rfl⟩ := hwmem
    refine ⟨t, ht, ?_, hinc⟩
    simpa [List.isEmpty_iff] using hne
  · rintro ⟨t, ht, hne, hinc⟩
    simp only [Bool.and_eq_true, decide_eq_true_eq, List.any_eq_true]
    have hmem : normalizeForSearch t ∈
        (tokens.map normalizeForSearch).filter (fun w => !w.isEmpty) := by
      rw [List.mem_filter]
      refine ⟨List.mem_map_of_mem _ ht, ?_⟩
      simpa [List.isEmpty_iff] using hne
    exact ⟨List.length_pos.mpr (List.ne_nil_of_mem hmem),
      normalizeForSearch t, hmem, hinc⟩

/-- Two concrete fragments for claim C8: the typographic spelling
`don’t — really` (right single quote U+2019, em dash U+2014) as a char
list. -/
def quoteTypographic : List Char :=
  ['d', 'o', 'n', rsQuote, 't', ' ', emDash, ' ',
   'r', 'e', 'a', 'l', 'l', 'y']

/-- The plain ASCII spelling `don't - really` as a char list. -/
def quoteAscii : List Char :=
  ['d', 'o', 'n', asciiSQuote, 't', ' ', '-', ' ',
   'r', 'e', 'a', 'l', 'l', 'y']

/-- C1 (counterexample): the claimed equivalence — a fragment is a hit iff
its stripped text contains at least one stripped anchor as a substring —
fails as literally stated. For the anchor list containing only a soft
hyphen, the stripped anchor is the empty string, which is a substring of
the stripped fragment text `a`, yet `renderPage` discards empty stripped
anchors (`filter(Boolean)`) and flags nothing. -/
theorem anchor_strategy_claim_counterexample :
    ¬ (isHit [[softHyphen]] ['a'] = true ↔
        ∃ t ∈ [[softHyphen]],
          jsIncludes (normalizeForSearch ['a']) (normalizeForSearch t) = true) := by
  decide

/-- C1 (amended): in the anchor-token strategy the fragment text and every
anchor are normalized with the stripping profile `normalizeForSearch`, and
a fragment is flagged as a hit iff its stripped text contains at least one
stripped anchor that is non-empty (anchors normalizing to the empty string
are discarded before matching); the decision is at fragment granularity
only, no character range is computed. -/
theorem anchor_strategy_hit_iff (tokens : List (List Char)) (frag : List Char) :
    isHit tokens frag = true ↔
      ∃ t ∈ tokens, normalizeForSearch t ≠ [] ∧
        jsIncludes (normalizeForSearch frag) (normalizeForSearch t) = true :=
  isHit_iff_aux tokens frag

/-- C3: `normalizeForSearch` is total; missing and empty input give the
empty string; output contains no ECMAScript whitespace and no soft hyphen
and no ASCII uppercase letter; the substitution table maps the seven
typographic dash and quote variants to their ASCII equivalents and every
other character passes through unchanged. -/
theorem normalizeForSearch_contract :
    (normalizeForSearchOpt none = [] ∧ normalizeForSearch [] = []) ∧
    (∀ s : List Char, ∀ c ∈ normalizeForSearch s,
        isJsWs c = false ∧ c ≠ softHyphen ∧ isAsciiUpper c = false) ∧
    (normChar enDash = '-' ∧ normChar emDash = '-' ∧
     normChar ldQuote = asciiDQuote ∧ normChar rdQuote = asciiDQuote ∧
     normChar lowQuote = asciiDQuote ∧ normChar rsQuote = asciiSQuote ∧
     normChar lsQuote = asciiSQuote) ∧
    (∀ c : Char, c ≠ enDash → c ≠ emDash → c ≠ ldQuote → c ≠ rdQuote →
        c ≠ lowQuote → c ≠ rsQuote → c ≠ lsQuote → normChar c = c) := by
  refine ⟨⟨rfl, rfl⟩, ?_, by decide, ?_⟩
  · intro s c hc
    obtain ⟨h1, h2, -, -, h5⟩ := mem_normalizeForSearch hc
    exact ⟨h1, h2, h5⟩
  · intro c h1 h2 h3 h4 h5 h6 h7
    unfold normChar
    rw [if_neg h1, if_neg h2, if_neg h3, if_neg h4, if_neg h5, if_neg h6,
      if_neg h7]

/-- C3 witness: the character `a` is in the normalization of `A`, and it is
neither whitespace nor a soft hyphen nor uppercase; the pass-through clause
instantiated at `x`. -/
theorem normalizeForSearch_contract_witness :
    ('a' ∈ normalizeForSearch ['A'] ∧
      (isJsWs 'a' = false ∧ 'a' ≠ softHyphen ∧ isAsciiUpper 'a' = false)) ∧
    ('x' ≠ enDash ∧ normChar 'x' = 'x') :=
  ⟨⟨by decide, normalizeForSearch_contract.2.1 ['A'] 'a' (by decide)⟩,
   ⟨by decide, normalizeForSearch_contract.2.2.2 'x' (by decide) (by decide)
      (by decide) (by decide) (by decide) (by decide) (by decide)⟩⟩

/-- C4: normalization is idempotent under both profiles — the stripping
profile `normalizeForSearch` from the source and the spec-modelled
collapsing profile `normalizeCollapse`. -/
theorem normalize_idempotent (s : List Char) :
    normalizeForSearch (normalizeForSearch s) = normalizeForSearch s ∧
    normalizeCollapse (normalizeCollapse s) = normalizeCollapse s :=
  ⟨normalizeForSearch_idem s, normalizeCollapse_idem s⟩

/-- C8: normalizing `don’t — really` and `don't - really` produces the same
canonical string under the stripping profile of the source and under the
spec-modelled collapsing profile. -/
theorem typographic_equivalence :
    normalizeForSearch quoteTypographic = normalizeForSearch quoteAscii ∧
    normalizeCollapse quoteTypographic = normalizeCollapse quoteAscii := by
  decide

/-- C10: an anchor whose stripping-profile normalization is empty is
discarded before matching and does not change any fragment's hit flag; and
when every supplied anchor normalizes to the empty string no fragment is
flagged as a hit, so a whitespace-and-soft-hyphen-only anchor never causes
a highlight. -/
theorem empty_stripped_anchors_ignored :
    (∀ (a : List Char) (tokens : List (List Char)) (frag : List Char),
        normalizeForSearch a = [] →
        isHit (a :: tokens) frag = isHit tokens frag) ∧
    (∀ (tokens : List (List Char)) (frag : List Char),
        (∀ t ∈ tokens, normalizeForSearch t = []) →
        isHit tokens frag = false) := by
  constructor
  · intro a tokens frag h
    unfold isHit wanted
    rw [List.map_cons, List.filter_cons, h]
    simp
  · intro tokens frag h
    by_contra hne
    rw [← Bool.not_eq_true, not_not] at hne
    obtain ⟨t, ht, htne, -⟩ := (isHit_iff_aux tokens frag).mp hne
    exact htne (h t ht)

/-- C10 witness: a soft-hyphen-only anchor strips to empty, leaves the hit
flag unchanged when prepended, and an anchor set of only
whitespace/soft-hyphen anchors flags nothing. -/
theorem empty_stripped_anchors_ignored_witness :
    (normalizeForSearch [softHyphen] = [] ∧
      isHit ([softHyphen] :: [['a']]) ['b'] = isHit [['a']] ['b']) ∧
    ((∀ t ∈ [[softHyphen], [' ']], normalizeForSearch t = []) ∧
      isHit [[softHyphen], [' ']] ['x'] = false) :=
  ⟨⟨by decide, empty_stripped_anchors_ignored.1 [softHyphen] [['a']] ['b']
      (by decide)⟩,
   ⟨by decide, empty_stripped_anchors_ignored.2 [[softHyphen], [' ']] ['x']
      (by decide)⟩⟩

/-- Embeds a `pdfCacheRef` entry of `src/unnamed/part_001`:
`{ doc, lastUsed }`. The pdf.js document handle is modelled by a numeric
identifier; every handle stored in the cache comes from a resolved
`getDocument` promise — a truthy object — so presence of the entry is
equivalent to the source's `cached?.doc` test. -/
structure CacheEntry where
  doc : Nat
  lastUsed : Nat
deriving DecidableEq

/-- Embeds `MAX_PDF_CACHE = 5` of `src/unnamed/part_001`. -/
def MAX_PDF_CACHE : Nat := 5

/-- JavaScript `Map.get` on the cache, modelled as association-list lookup
(a `Map` holds at most one entry per key, in insertion order). -/
def lookupKey : List (String × CacheEntry) → String → Option CacheEntry
  | [], _ => none
  | (k, e) :: rest, key => if k = key then some e else lookupKey rest key

/-- JavaScript `Map.set`: replace in place when the key is present,
otherwise append at the end (insertion order). -/
def setEntry : List (String × CacheEntry) → String → CacheEntry →
    List (String × CacheEntry)
  | [], key, e => [(key, e)]
  | (k, e0) :: rest, key, e =>
    if k = key then (k, e) :: rest else (k, e0) :: setEntry rest key e

/-- Embeds `cached.lastUsed = Date.now()` on a cache hit in `onSelect` of
`src/unnamed/part_001`: in-place mutation of the matching entry's
timestamp, all other entries and the iteration order untouched. -/
def updateLastUsed (cache : List (String × CacheEntry)) (key : String)
    (now : Nat) : List (String × CacheEntry) :=
  cache.map (fun p => if p.1 = key then (p.1, ⟨p.2.doc, now⟩) else p)

/-- Embeds the scan loop of `prunePdfCache` in `src/unnamed/part_001`:
fold over the entries in iteration order keeping the first key whose
`lastUsed` is strictly smallest (`oldest` starts at `Infinity`, so the
first entry always beats the initial `none`). -/
def findOldestAux : Option (String × Nat) → List (String × CacheEntry) →
    Option String
  | best, [] => best.map Prod.fst
  | none, (k, e) :: rest => findOldestAux (some (k, e.lastUsed)) rest
  | some (bk, bt), (k, e) :: rest =>
    if e.lastUsed < bt then findOldestAux (some (k, e.lastUsed)) rest
    else findOldestAux (some (bk, bt)) rest

/-- JavaScript `Map.delete`: remove the entry with the given key, keeping
the order of the others. -/
def eraseKey : List (String × CacheEntry) → String →
    List (String × CacheEntry)
  | [], _ => []
  | (k, e) :: rest, key => if k = key then rest else (k, e) :: eraseKey rest key

/-- Embeds `prunePdfCache` of `src/unnamed/part_001`: return unchanged when
the size is within `MAX_PDF_CACHE`; otherwise delete the entry found by the
scan, guarded by the truthiness test `if (oldestKey)` (a `null` or empty
key deletes nothing). -/
def prunePdfCache (cache : List (String × CacheEntry)) :
    List (String × CacheEntry) :=
  if cache.length ≤ MAX_PDF_CACHE then cache
  else
    match findOldestAux none cache with
    | none => cache
    | some k => if k = "" then cache else eraseKey cache k

/-- Embeds the cache-relevant part of `onSelect` in `src/unnamed/part_001`.
On a hit the entry's `lastUsed` is set to now and the cached handle is
returned without invoking pdf.js (`openerInvoked = false`). On a miss the
opener runs: if `getDocument` rejects (`openResult = none`) the `catch`
branch leaves the cache untouched; on success the document is stored with
`lastUsed = now` and `prunePdfCache` runs. Returns the new cache, the
document shown (none when loading failed), and whether the opener was
invoked. -/
def acquire (cache : List (String × CacheEntry)) (key : String) (now : Nat)
    (openResult : Option Nat) :
    List (String × CacheEntry) × Option Nat × Bool :=
  match lookupKey cache key with
  | some e => (updateLastUsed cache key now, some e.doc, false)
  | none =>
    match openResult with
    | none => (cache, none, true)
    | some d => (prunePdfCache (setEntry cache key ⟨d, now⟩), some d, true)

/-- Fold a sequence of selections through the cache, starting from the
empty cache; each event carries the cache key, the current time, and the
opener's outcome. -/
def runAcquires (evs : List (String × Nat × Option Nat)) :
    List (String × CacheEntry) :=
  evs.foldl (fun c ev => (acquire c ev.1 ev.2.1 ev.2.2).1) []

theorem findOldestAux_mem :
    ∀ (cache : List (String × CacheEntry)) (bk : String) (bt : Nat),
      ∃ k, findOldestAux (some (bk, bt)) cache = some k ∧
        (k = bk ∨ k ∈ cache.map Prod.fst) := by
  intro cache
  induction cache with
  | nil => intro bk bt; exact ⟨bk, rfl, Or.inl rfl⟩
  | cons p rest ih =>
    intro bk bt
    obtain ⟨k0, e0⟩ := p
    unfold findOldestAux
    by_cases h : e0.lastUsed < bt
    · rw [if_pos h]
      obtain ⟨k', h1, h2⟩ := ih k0 e0.lastUsed
      refine ⟨k', h1, Or.inr ?_⟩
      rcases h2 with h2 | h2
      · simp [h2]
      · simp [h2]
    · rw [if_neg h]
      obtain ⟨k', h1, h2⟩ := ih bk bt
      refine ⟨k', h1, ?_⟩
      rcases h2 with h2 | h2
      · exact Or.inl h2
      · exact Or.inr (by simp [h2])

theorem findOldestAux_none_mem (p : String × CacheEntry)
    (rest : List (String × CacheEntry)) :
    ∃ k, findOldestAux none (p :: rest) = some k ∧
      k ∈ (p :: rest).map Prod.fst := by
  obtain ⟨k0, e0⟩ := p
  obtain ⟨k', h1, h2⟩ := findOldestAux_mem rest k0 e0.lastUsed
  refine ⟨k', h1, ?_⟩
  rcases h2 with h2 | h2
  · simp [h2]
  · simp [h2]

theorem eraseKey_length {cache : List (String × CacheEntry)} {k : String}
    (h : k ∈ cache.map Prod.fst) :
    (eraseKey cache k).length + 1 = cache.length := by
  induction cache with
  | nil => simp at h
  | cons p rest ih =>
    obtain ⟨k0, e0⟩ := p
    unfold eraseKey
    by_cases hk : k0 = k
    · rw [if_pos hk]; rfl
    · rw [if_neg hk]
      have hmem : k ∈ rest.map Prod.fst := by
        rcases List.mem_cons.mp h with h1 | h1
        · exact absurd h1.symm hk
        · exact h1
      simp only [List.length_cons]
      rw [← ih hmem]

theorem mem_eraseKey {p : String × CacheEntry} {k : String} :
    ∀ {cache : List (String × CacheEntry)}, p ∈ eraseKey cache k → p ∈ cache := by
  intro cache
  induction cache with
  | nil => exact fun h => h
  | cons q rest ih =>
    obtain ⟨k0, e0⟩ := q
    unfold eraseKey
    by_cases hk : k0 = k
    · rw [if_pos hk]
      exact fun h => List.mem_cons_of_mem _ h
    · rw [if_neg hk]
      intro h
      rcases List.mem_cons.mp h with h1 | h1
      · exact h1 ▸ List.mem_cons_self _ _
      · exact List.mem_cons_of_mem _ (ih h1)

theorem keys_eraseKey {k' k : String} {cache : List (String × CacheEntry)}
    (h : k' ∈ (eraseKey cache k).map Prod.fst) : k' ∈ cache.map Prod.fst := by
  rw [List.mem_map] at h
  obtain ⟨p, hp, rfl⟩ := h
  exact List.mem_map_of_mem _ (mem_eraseKey hp)

theorem setEntry_length_of_absent {cache : List (String × CacheEntry)}
    {key : String} {e : CacheEntry} (h : lookupKey cache key = none) :
    (setEntry cache key e).length = cache.length + 1 := by
  induction cache with
  | nil => rfl
  | cons p rest ih =>
    obtain ⟨k0, e0⟩ := p
    unfold lookupKey at h
    unfold setEntry
    by_cases hk : k0 = key
    · rw [if_pos hk] at h; exact absurd h (by simp)
    · rw [if_neg hk] at h
      rw [if_neg hk]
      simp only [List.length_cons]
      rw [ih h]

theorem keys_setEntry {k' key : String} {e : CacheEntry} :
    ∀ {cache : List (String × CacheEntry)},
      k' ∈ (setEntry cache key e).map Prod.fst →
      k' ∈ cache.map Prod.fst ∨ k' = key := by
  intro cache
  induction cache with
  | nil =>
    intro h
    simp only [setEntry, List.map_cons, List.map_nil] at h
    rcases List.mem_cons.mp h with h1 | h1
    · exact Or.inr h1
    · simp at h1
  | cons p rest ih =>
    obtain ⟨k0, e0⟩ := p
    unfold setEntry
    by_cases hk : k0 = key
    · rw [if_pos hk]
      intro h
      simp only [List.map_cons] at h
      rcases List.mem_cons.mp h with h1 | h1
      · exact Or.inr (h1.trans hk)
      · exact Or.inl (by simp [List.mem_map] at h1 ⊢; tauto)
    · rw [if_neg hk]
      intro h
      simp only [List.map_cons] at h
      rcases List.mem_cons.mp h with h1 | h1
      · exact Or.inl (by simp [h1])
      · rcases ih h1 with h2 | h2
        · exact Or.inl (by simp only [List.map_cons]; exact List.mem_cons_of_mem _ h2)
        · exact Or.inr h2

theorem keys_updateLastUsed (cache : List (String × CacheEntry))
    (key : String) (now : Nat) :
    (updateLastUsed cache key now).map Prod.fst = cache.map Prod.fst := by
  unfold updateLastUsed
  rw [List.map_map]
  apply List.map_congr_left
  intro p _
  by_cases h : p.1 = key
  · simp [h]
  · simp [h]

theorem length_updateLastUsed (cache : List (String × CacheEntry))
    (key : String) (now : Nat) :
    (updateLastUsed cache key now).length = cache.length := by
  unfold updateLastUsed
  exact List.length_map _ _

theorem prunePdfCache_bound {cache : List (String × CacheEntry)}
    (hlen : cache.length ≤ MAX_PDF_CACHE + 1)
    (hkeys : ∀ k ∈ cache.map Prod.fst, k ≠ "") :
    (prunePdfCache cache).length ≤ MAX_PDF_CACHE := by
  unfold prunePdfCache
  by_cases hle : cache.length ≤ MAX_PDF_CACHE
  · rw [if_pos hle]; exact hle
  · rw [if_neg hle]
    have hlen6 : cache.length = MAX_PDF_CACHE + 1 := by omega
    cases cache with
    | nil => simp [MAX_PDF_CACHE] at hlen6
    | cons p rest =>
      obtain ⟨k, hfind, hmem⟩ := findOldestAux_none_mem p rest
      rw [hfind]
      have hne : k ≠ "" := hkeys k hmem
      show (if k = "" then p :: rest else eraseKey (p :: rest) k).length ≤
        MAX_PDF_CACHE
      rw [if_neg hne]
      have := eraseKey_length hmem
      omega

theorem keys_prunePdfCache {k' : String} {cache : List (String × CacheEntry)}
    (h : k' ∈ (prunePdfCache cache).map Prod.fst) : k' ∈ cache.map Prod.fst := by
  unfold prunePdfCache at h
  by_cases hle : cache.length ≤ MAX_PDF_CACHE
  · rwa [if_pos hle] at h
  · rw [if_neg hle] at h
    cases hfind : findOldestAux none cache with
    | none => rwa [hfind] at h
    | some k =>
      rw [hfind] at h
      have h2 : k' ∈ (if k = "" then cache else eraseKey cache k).map
        Prod.fst := h
      by_cases hk : k = ""
      · rwa [if_pos hk] at h2
      · rw [if_neg hk] at h2
        exact keys_eraseKey h2

theorem acquire_preserves_inv (cache : List (String × CacheEntry))
    (key : String) (now : Nat) (openRes : Option Nat)
    (hkey : key ≠ "")
    (hlen : cache.length ≤ MAX_PDF_CACHE)
    (hkeys : ∀ k ∈ cache.map Prod.fst, k ≠ "") :
    (acquire cache key now openRes).1.length ≤ MAX_PDF_CACHE ∧
    ∀ k ∈ (acquire cache key now openRes).1.map Prod.fst, k ≠ "" := by
  unfold acquire
  cases hlook : lookupKey cache key with
  | some e =>
    refine ⟨?_, ?_⟩
    · rw [length_updateLastUsed]; exact hlen
    · rw [keys_updateLastUsed]; exact hkeys
  | none =>
    cases openRes with
    | none => exact ⟨hlen, hkeys⟩
    | some d =>
      refine ⟨?_, ?_⟩
      · apply prunePdfCache_bound
        · rw [setEntry_length_of_absent hlook]; omega
        · intro k hk
          rcases keys_setEntry hk with h1 | h1
          · exact hkeys k h1
          · exact h1 ▸ hkey
      · intro k hk
        have h1 := keys_prunePdfCache hk
        rcases keys_setEntry h1 with h2 | h2
        · exact hkeys k h2
        · exact h2 ▸ hkey

theorem updateLastUsed_cons (k0 : String) (e0 : CacheEntry)
    (rest : List (String × CacheEntry)) (key : String) (now : Nat) :
    updateLastUsed ((k0, e0) :: rest) key now =
      (if k0 = key then (k0, (⟨e0.doc, now⟩ : CacheEntry)) else (k0, e0)) ::
        updateLastUsed rest key now := by
  unfold updateLastUsed
  rw [List.map_cons]

theorem lookupKey_cons (k0 : String) (e0 : CacheEntry)
    (rest : List (String × CacheEntry)) (key : String) :
    lookupKey ((k0, e0) :: rest) key =
      if k0 = key then some e0 else lookupKey rest key := rfl

theorem lookupKey_updateLastUsed_self {cache : List (String × CacheEntry)}
    {key : String} {e : CacheEntry} (now : Nat)
    (h : lookupKey cache key = some e) :
    lookupKey (updateLastUsed cache key now) key = some ⟨e.doc, now⟩ := by
  induction cache with
  | nil => simp [lookupKey] at h
  | cons p rest ih =>
    obtain ⟨k0, e0⟩ := p
    rw [lookupKey_cons] at h
    rw [updateLastUsed_cons]
    by_cases hk : k0 = key
    · rw [if_pos hk] at h
      injection h with h
      subst h
      rw [if_pos hk, lookupKey_cons, if_pos hk]
    · rw [if_neg hk] at h
      rw [if_neg hk, lookupKey_cons, if_neg hk]
      exact ih h

theorem lookupKey_updateLastUsed_other {cache : List (String × CacheEntry)}
    {key k' : String} (now : Nat) (h : k' ≠ key) :
    lookupKey (updateLastUsed cache key now) k' = lookupKey cache k' := by
  induction cache with
  | nil => rfl
  | cons p rest ih =>
    obtain ⟨k0, e0⟩ := p
    unfold updateLastUsed at ih ⊢
    simp only [List.map_cons]
    by_cases hk : k0 = key
    · rw [if_pos hk]
      unfold lookupKey
      have hk2 : ¬(k0 = k') := fun he => h (he ▸ hk ▸ rfl)
      rw [if_neg (by simpa using hk2), if_neg hk2]
      exact ih
    · rw [if_neg hk]
      unfold lookupKey
      by_cases hk3 : k0 = k'
      · rw [if_pos hk3, if_pos hk3]
      · rw [if_neg hk3, if_neg hk3]
        exact ih

/-- C2: starting from the empty cache, after every sequence of completed
`acquire` operations (each keyed by a non-empty cache key, as produced by
`getPdfCacheKey`, with arbitrary timestamps and opener outcomes) the number
of cache entries never exceeds the configured maximum `MAX_PDF_CACHE = 5`. -/
theorem cache_size_invariant (evs : List (String × Nat × Option Nat))
    (h : ∀ ev ∈ evs, ev.1 ≠ "") :
    (runAcquires evs).length ≤ MAX_PDF_CACHE := by
  unfold runAcquires
  suffices H : ∀ (init : List (String × CacheEntry)),
      init.length ≤ MAX_PDF_CACHE →
      (∀ k ∈ init.map Prod.fst, k ≠ "") →
      (∀ ev ∈ evs, ev.1 ≠ "") →
      (evs.foldl (fun c ev => (acquire c ev.1 ev.2.1 ev.2.2).1) init).length ≤
          MAX_PDF_CACHE by
    exact H [] (by simp [MAX_PDF_CACHE]) (by simp) h
  clear h
  induction evs with
  | nil => intro init h1 _ _; simpa using h1
  | cons ev rest ih =>
    intro init h1 h2 h3
    simp only [List.foldl_cons]
    have hstep := acquire_preserves_inv init ev.1 ev.2.1 ev.2.2
      (h3 ev (List.mem_cons_self _ _)) h1 h2
    exact ih _ hstep.1 hstep.2
      (fun e he => h3 e (List.mem_cons_of_mem _ he))

/-- C2 witness: a concrete trace of six successful acquires with distinct
non-empty keys ends with at most five entries. -/
theorem cache_size_invariant_witness :
    (∀ ev ∈ ([("a", 1, some 1), ("b", 2, some 2), ("c", 3, some 3),
        ("d", 4, some 4), ("e", 5, some 5), ("f", 6, some 6)] :
        List (String × Nat × Option Nat)), ev.1 ≠ "") ∧
    (runAcquires [("a", 1, some 1), ("b", 2, some 2), ("c", 3, some 3),
        ("d", 4, some 4), ("e", 5, some 5), ("f", 6, some 6)]).length ≤
      MAX_PDF_CACHE :=
  ⟨by decide, cache_size_invariant _ (by decide)⟩

/-- Trace of seven acquires of distinct documents at strictly increasing
times, for claim C5. -/
def sevenAcquires : List (String × Nat × Option Nat) :=
  [("k1", 1, some 101), ("k2", 2, some 102), ("k3", 3, some 103),
   ("k4", 4, some 104), ("k5", 5, some 105), ("k6", 6, some 106),
   ("k7", 7, some 107)]

/-- C5: after acquiring seven distinct keys through the cache (maximum 5),
exactly the five most recently acquired entries remain, in order, each with
its own handle and timestamp — eviction removed the two entries with the
smallest `lastUsed`; and re-acquiring a key that is already present never
changes the cache's size or its key set (no eviction). -/
theorem lru_eviction_seven :
    (runAcquires sevenAcquires =
      [("k3", ⟨103, 3⟩), ("k4", ⟨104, 4⟩), ("k5", ⟨105, 5⟩),
       ("k6", ⟨106, 6⟩), ("k7", ⟨107, 7⟩)]) ∧
    (∀ (cache : List (String × CacheEntry)) (key : String) (now : Nat)
        (openRes : Option Nat) (e : CacheEntry),
      lookupKey cache key = some e →
      (acquire cache key now openRes).1.length = cache.length ∧
      (acquire cache key now openRes).1.map Prod.fst = cache.map Prod.fst) := by
  constructor
  · decide
  · intro cache key now openRes e h
    unfold acquire
    rw [h]
    exact ⟨length_updateLastUsed cache key now,
      keys_updateLastUsed cache key now⟩

/-- C5 witness: re-acquiring the only key of a one-entry cache keeps its
size and key set. -/
theorem lru_eviction_seven_witness :
    lookupKey [("a", ⟨9, 1⟩)] "a" = some ⟨9, 1⟩ ∧
    ((acquire [("a", ⟨9, 1⟩)] "a" 5 none).1.length =
        ([("a", (⟨9, 1⟩ : CacheEntry))]).length ∧
      (acquire [("a", ⟨9, 1⟩)] "a" 5 none).1.map Prod.fst =
        ([("a", (⟨9, 1⟩ : CacheEntry))]).map Prod.fst) :=
  ⟨by decide, lru_eviction_seven.2 [("a", ⟨9, 1⟩)] "a" 5 none ⟨9, 1⟩ (by decide)⟩

/-- C6: when `acquire` is called with a key already in the cache, the
cached handle is returned, the opener is not invoked, the entry's
`lastUsed` becomes the current time, and every other entry (key, handle and
timestamp) as well as the key order is left unchanged. -/
theorem acquire_hit_frame (cache : List (String × CacheEntry)) (key : String)
    (now : Nat) (openRes : Option Nat) (e : CacheEntry)
    (h : lookupKey cache key = some e) :
    (acquire cache key now openRes).2.1 = some e.doc ∧
    (acquire cache key now openRes).2.2 = false ∧
    lookupKey (acquire cache key now openRes).1 key = some ⟨e.doc, now⟩ ∧
    (∀ k', k' ≠ key →
      lookupKey (acquire cache key now openRes).1 k' = lookupKey cache k') ∧
    (acquire cache key now openRes).1.map Prod.fst = cache.map Prod.fst := by
  unfold acquire
  rw [h]
  refine ⟨rfl, rfl, lookupKey_updateLastUsed_self now h, ?_,
    keys_updateLastUsed cache key now⟩
  intro k' hk'
  exact lookupKey_updateLastUsed_other now hk'

/-- C6 witness: hitting key `a` of a two-entry cache returns the cached
handle 9 without opening, stamps time 5 on it, and leaves entry `b`
untouched. -/
theorem acquire_hit_frame_witness :
    lookupKey [("a", ⟨9, 1⟩), ("b", ⟨8, 2⟩)] "a" = some ⟨9, 1⟩ ∧
    ((acquire [("a", ⟨9, 1⟩), ("b", ⟨8, 2⟩)] "a" 5 (some 77)).2.1 = some 9 ∧
     (acquire [("a", ⟨9, 1⟩), ("b", ⟨8, 2⟩)] "a" 5 (some 77)).2.2 = false ∧
     lookupKey (acquire [("a", ⟨9, 1⟩), ("b", ⟨8, 2⟩)] "a" 5 (some 77)).1 "a" =
       some ⟨9, 5⟩ ∧
     (∀ k', k' ≠ "a" →
       lookupKey (acquire [("a", ⟨9, 1⟩), ("b", ⟨8, 2⟩)] "a" 5 (some 77)).1 k' =
         lookupKey [("a", ⟨9, 1⟩), ("b", ⟨8, 2⟩)] k') ∧
     (acquire [("a", ⟨9, 1⟩), ("b", ⟨8, 2⟩)] "a" 5 (some 77)).1.map Prod.fst =
       ([("a", (⟨9, 1⟩ : CacheEntry)), ("b", ⟨8, 2⟩)]).map Prod.fst) :=
  ⟨by decide,
   acquire_hit_frame [("a", ⟨9, 1⟩), ("b", ⟨8, 2⟩)] "a" 5 (some 77) ⟨9, 1⟩
     (by decide)⟩

/-- C7: when the key is absent and opening the document fails (the
`getDocument` promise rejects), `acquire` leaves the cache exactly as it
was — nothing is inserted, nothing is evicted — and reports the failure for
the current selection only (no document handle is produced). -/
theorem acquire_load_failure (cache : List (String × CacheEntry))
    (key : String) (now : Nat) (h : lookupKey cache key = none) :
    acquire cache key now none = (cache, none, true) := by
  unfold acquire
  rw [h]

/-- C7 witness: a failed open of absent key `b` leaves a one-entry cache
unchanged. -/
theorem acquire_load_failure_witness :
    lookupKey [("a", ⟨9, 1⟩)] "b" = none ∧
    acquire [("a", ⟨9, 1⟩)] "b" 5 none = ([("a", ⟨9, 1⟩)], none, true) :=
  ⟨by decide, acquire_load_failure [("a", ⟨9, 1⟩)] "b" 5 (by decide)⟩

/-- Modelled from the spec: the Page Scanner and Quote Locator of §4.3–§4.4
are not implemented under `src/` (the source delegates page matching to an
external matcher); `MatchResult` is the result type of §3: a page number
with the set of matched fragment indices, or not-found. -/
inductive MatchResult where
  | found : Nat → List Nat → MatchResult
  | notFound : MatchResult
deriving DecidableEq

/-- Modelled from the spec: state of the Fragment Indexer of §4.2 — output
buffer, index map, and whether the previously emitted character was a
separator. -/
structure BIState where
  buf : List Char
  imap : List Nat
  prevWs : Bool

/-- Modelled from the spec: one character step of the Fragment Indexer
(§4.2) — substitution plus lowercase, whitespace emits one separator only
when the previous emitted character was not one, non-whitespace is emitted
and attributed to the owning fragment index. -/
def biChar (i : Nat) (st : BIState) (c : Char) : BIState :=
  let c2 := Char.toLower (normChar c)
  if isJsWs c2 then
    if st.prevWs then st
    else ⟨st.buf ++ [' '], st.imap ++ [i], true⟩
  else ⟨st.buf ++ [c2], st.imap ++ [i], false⟩

/-- Modelled from the spec: one fragment step of the Fragment Indexer
(§4.2) — after the fragment's characters, a synthetic separator attributed
to the fragment just finished is emitted unless the buffer already ends in
one; an empty fragment does not itself force a separator. -/
def biFrag (st : BIState) (i : Nat) (frag : List Char) : BIState :=
  let st2 := frag.foldl (biChar i) st
  if frag.isEmpty then st2
  else if st2.prevWs then st2
  else ⟨st2.buf ++ [' '], st2.imap ++ [i], true⟩

/-- Modelled from the spec: the Fragment Indexer `buildIndex` of §4.2 —
canonical string and index map for one page of fragments, with trailing
separators trimmed from both. -/
def buildIndex (frags : List (List Char)) : List Char × List Nat :=
  let st := frags.enum.foldl (fun st p => biFrag st p.1 p.2) ⟨[], [], true⟩
  let buf := trimTrailingWs st.buf
  (buf, st.imap.take buf.length)

/-- Modelled from the spec: the primary-strategy Quote Locator of §4.3 —
normalize the needle with the collapsing profile, search for its first
occurrence in the canonical string, and project the matched half-open range
through the index map collecting distinct fragment indices. -/
def locate (needle : List Char) (canon : List Char) (imap : List Nat) :
    Option (List Nat) :=
  let nd := normalizeCollapse needle
  match firstMatchAux nd 0 canon with
  | none => none
  | some s => some (((imap.drop s).take nd.length).dedup)

/-- Modelled from the spec: whether a page yields a match — the page's
fragments decode and the Locator finds the needle on them. A page that
fails to decode is not a hit (§4.4 skips it). -/
def hitPage (getFrags : Nat → Option (List (List Char))) (needle : List Char)
    (p : Nat) : Bool :=
  match getFrags p with
  | none => false
  | some frags =>
    (locate needle (buildIndex frags).1 (buildIndex frags).2).isSome

/-- Modelled from the spec: the scan loop of §4.4 starting at page `p` with
the given number of pages remaining; returns the list of pages for which
fragments were requested (in request order) together with the result.
Decode failure skips the page; a located match stops the scan at once. -/
def scanAux (getFrags : Nat → Option (List (List Char))) (needle : List Char) :
    Nat → Nat → List Nat × MatchResult
  | _, 0 => ([], .notFound)
  | p, fuel + 1 =>
    match getFrags p with
    | none =>
      let r := scanAux getFrags needle (p + 1) fuel
      (p :: r.1, r.2)
    | some frags =>
      match locate needle (buildIndex frags).1 (buildIndex frags).2 with
      | some ids => ([p], .found p ids)
      | none =>
        let r := scanAux getFrags needle (p + 1) fuel
        (p :: r.1, r.2)

/-- Modelled from the spec: `scan(document, needle, pageLimit)` of §4.4 —
sequentially request pages `1..min(documentPageCount, pageLimit)`, stopping
at the first match. -/
def scan (getFrags : Nat → Option (List (List Char)))
    (pageCount limit : Nat) (needle : List Char) : List Nat × MatchResult :=
  scanAux getFrags needle 1 (min pageCount limit)

/-- Concrete ten-page document for claim C9: the quote `q` occurs only on
page 7; every other page in range holds the single fragment `x`. -/
def demoTenPages (p : Nat) : Option (List (List Char)) :=
  if p = 7 then some [['q']]
  else if 1 ≤ p ∧ p ≤ 10 then some [['x']] else none

theorem scanAux_zero (gf : Nat → Option (List (List Char)))
    (nd : List Char) (p : Nat) :
    scanAux gf nd p 0 = ([], .notFound) := rfl

theorem scanAux_succ (gf : Nat → Option (List (List Char)))
    (nd : List Char) (p fuel : Nat) :
    scanAux gf nd p (fuel + 1) =
      match gf p with
      | none => (p :: (scanAux gf nd (p + 1) fuel).1,
          (scanAux gf nd (p + 1) fuel).2)
      | some frags =>
        match locate nd (buildIndex frags).1 (buildIndex frags).2 with
        | some ids => ([p], .found p ids)
        | none => (p :: (scanAux gf nd (p + 1) fuel).1,
            (scanAux gf nd (p + 1) fuel).2) := rfl

theorem scanAux_spec (gf : Nat → Option (List (List Char))) (nd : List Char) :
    ∀ (fuel p : Nat),
      (scanAux gf nd p fuel).1 =
        List.range' p (scanAux gf nd p fuel).1.length ∧
      (scanAux gf nd p fuel).1.length ≤ fuel ∧
      ((scanAux gf nd p fuel).2 = .notFound →
        (scanAux gf nd p fuel).1.length = fuel ∧
        ∀ q ∈ (scanAux gf nd p fuel).1, hitPage gf nd q = false) ∧
      (∀ pg ids, (scanAux gf nd p fuel).2 = .found pg ids →
        hitPage gf nd pg = true ∧
        pg + 1 = p + (scanAux gf nd p fuel).1.length ∧
        ∀ q, p ≤ q → q < pg → hitPage gf nd q = false) := by
  intro fuel
  induction fuel with
  | zero =>
    intro p
    rw [scanAux_zero]
    refine ⟨rfl, Nat.le_refl 0, fun _ => ⟨rfl, by simp⟩, ?_⟩
    intro pg ids h
    exact absurd h (by simp)
  | succ fuel ih =>
    intro p
    cases hgf : gf p with
    | none =>
      have heq : scanAux gf nd p (fuel + 1) =
          (p :: (scanAux gf nd (p + 1) fuel).1,
            (scanAux gf nd (p + 1) fuel).2) := by
        rw [scanAux_succ, hgf]
      rw [heq]
      obtain ⟨ihr, ihlen, ihnf, ihf⟩ := ih (p + 1)
      have hmiss : hitPage gf nd p = false := by
        unfold hitPage
        rw [hgf]
      refine ⟨?_, ?_, ?_, ?_⟩
      · simp only [List.length_cons, List.range'_succ]
        rw [← ihr]
      · simp only [List.length_cons]
        omega
      · intro hnf
        obtain ⟨hl, hq⟩ := ihnf hnf
        refine ⟨by simp [hl], ?_⟩
        intro q hq2
        rcases List.mem_cons.mp hq2 with h1 | h1
        · exact h1 ▸ hmiss
        · exact hq q h1
      · intro pg ids hfd
        obtain ⟨h1, h2, h3⟩ := ihf pg ids hfd
        refine ⟨h1, by simp only [List.length_cons]; omega, ?_⟩
        intro q hq1 hq2
        rcases Nat.eq_or_lt_of_le hq1 with h4 | h4
        · exact h4 ▸ hmiss
        · exact h3 q h4 hq2
    | some frags =>
      cases hloc : locate nd (buildIndex frags).1 (buildIndex frags).2 with
      | some ids =>
        have heq : scanAux gf nd p (fuel + 1) = ([p], .found p ids) := by
          rw [scanAux_succ]
          simp only [hgf, hloc]
        rw [heq]
        have hhit : hitPage gf nd p = true := by
          simp only [hitPage, hgf, hloc, Option.isSome_some]
        refine ⟨rfl, by simp, ?_, ?_⟩
        · intro h
          exact absurd h (by simp)
        · intro pg ids2 hfd
          injection hfd with hpg hids
          subst hpg
          refine ⟨hhit, rfl, ?_⟩
          intro q hq1 hq2
          omega
      | none =>
        have heq : scanAux gf nd p (fuel + 1) =
            (p :: (scanAux gf nd (p + 1) fuel).1,
              (scanAux gf nd (p + 1) fuel).2) := by
          rw [scanAux_succ]
          simp only [hgf, hloc]
        rw [heq]
        obtain ⟨ihr, ihlen, ihnf, ihf⟩ := ih (p + 1)
        have hmiss : hitPage gf nd p = false := by
          simp only [hitPage, hgf, hloc, Option.isSome_none]
        refine ⟨?_, ?_, ?_, ?_⟩
        · simp only [List.length_cons, List.range'_succ]
          rw [← ihr]
        · simp only [List.length_cons]
          omega
        · intro hnf
          obtain ⟨hl, hq⟩ := ihnf hnf
          refine ⟨by simp [hl], ?_⟩
          intro q hq2
          rcases List.mem_cons.mp hq2 with h1 | h1
          · exact h1 ▸ hmiss
          · exact hq q h1
        · intro pg ids hfd
          obtain ⟨h1, h2, h3⟩ := ihf pg ids hfd
          refine ⟨h1, by simp only [List.length_cons]; omega, ?_⟩
          intro q hq1 hq2
          rcases Nat.eq_or_lt_of_le hq1 with h4 | h4
          · exact h4 ▸ hmiss
          · exact h3 q h4 hq2

/-- C9: the Page Scanner (spec-modelled, §4.4) requests fragments for
consecutive pages starting at 1, at most `min(documentPageCount, pageLimit)`
of them; on `notFound` it requested the whole range and no requested page
matched; on a match it stopped immediately at the first matching page,
never requesting a later page. In particular, for the ten-page document
whose quote occurs only on page 7, with `pageLimit = 3`, the scan returns
`notFound` having requested exactly pages 1, 2, 3 (never pages 4–10). -/
theorem scan_sequential_bounded :
    (∀ (gf : Nat → Option (List (List Char))) (nd : List Char)
        (pageCount limit : Nat),
      (scan gf pageCount limit nd).1 =
        List.range' 1 (scan gf pageCount limit nd).1.length ∧
      (scan gf pageCount limit nd).1.length ≤ min pageCount limit ∧
      ((scan gf pageCount limit nd).2 = .notFound →
        (scan gf pageCount limit nd).1.length = min pageCount limit ∧
        ∀ q ∈ (scan gf pageCount limit nd).1, hitPage gf nd q = false) ∧
      (∀ pg ids, (scan gf pageCount limit nd).2 = .found pg ids →
        hitPage gf nd pg = true ∧
        pg = (scan gf pageCount limit nd).1.length ∧
        ∀ q, 1 ≤ q → q < pg → hitPage gf nd q = false)) ∧
    ((scan demoTenPages 10 3 ['q']).2 = .notFound ∧
      (scan demoTenPages 10 3 ['q']).1 = [1, 2, 3]) := by
  constructor
  · intro gf nd pageCount limit
    simp only [scan]
    obtain ⟨h1, h2, h3, h4⟩ := scanAux_spec gf nd (min pageCount limit) 1
    refine ⟨h1, h2, h3, ?_⟩
    intro pg ids hfd
    obtain ⟨g1, g2, g3⟩ := h4 pg ids hfd
    refine ⟨g1, by omega, g3⟩
  · constructor
    · decide
    · decide

/-- C9 witness: the not-found clause instantiated at the concrete ten-page
document with page limit 3 — the scan requested pages whose count is
`min 10 3 = 3` and none of them is a hit. -/
theorem scan_sequential_bounded_witness :
    (scan demoTenPages 10 3 ['q']).2 = MatchResult.notFound ∧
    ((scan demoTenPages 10 3 ['q']).1.length = min 10 3 ∧
      ∀ q ∈ (scan demoTenPages 10 3 ['q']).1,
        hitPage demoTenPages ['q'] q = false) :=
  ⟨by decide,
   (scan_sequential_bounded.1 demoTenPages ['q'] 10 3).2.2.1 (by decide)⟩
